import Mathlib

/-!
Verification development for the pathway-pipeline-v2 hierarchy engine.

The Python sources under `scripts/pathway_pipeline_v2/` are shallowly
embedded as pure Lean functions.  Database-backed state (tables of
pathways, edges, canonical-name mappings) is made explicit as values
threaded through the functions; the external classification oracle is a
parameter (its structured response is passed in).  Numeric confidence
scores are carried as rationals: the code only stores and copies them,
never computes with them, so their exact float representation is
irrelevant to every property proved here.
-/

namespace PipelineV2

/-! ## config.py -/

/-- `config.ROOT_CATEGORIES` keys: the 12 fixed root category names. -/
def ROOT_CATEGORY_NAMES : List String :=
  [ "Cellular Signaling", "Metabolism", "Protein Quality Control",
    "Cell Death", "Cell Cycle", "DNA Damage Response",
    "Vesicle Transport", "Immune Response", "Neuronal Function",
    "Cytoskeleton Organization", "Transcriptional Regulation",
    "Chromatin Organization" ]

/-- `config.BATCH_SIZE_STAGE3 = 5` (the hard batch-size constraint for Stage 3). -/
def BATCH_SIZE_STAGE3 : Nat := 5

/-- `config.MAX_HIERARCHY_DEPTH = 10`. -/
def MAX_HIERARCHY_DEPTH : Nat := 10

/-- `config.MAX_SIBLINGS_PER_LEVEL = 10`. -/
def MAX_SIBLINGS_PER_LEVEL : Nat := 10

/-- `config.FUZZY_MATCH_THRESHOLD = 0.70`. -/
def FUZZY_MATCH_THRESHOLD : ℚ := mkRat 70 100

/-! ## Oracle responses

`ai_client.call_ai_sequential` returns an object with a `success` flag and
(`success = true` only) parsed JSON `data`.  `data = none` models a `None`
payload, on which the stages' `result.data.get(...)` attribute access
raises and the surrounding `try/except` leaves the inputs unchanged. -/

structure AIResult (α : Type) where
  success : Bool
  data : Option α
deriving Repr, DecidableEq

/-! ## stage3_reassign_interactions.py -/

/-- The interaction dict as consumed by `reassign_interactions_batch`.
`canonical_pathway` models the `"canonical_pathway"` key
(`none` = key absent) and `initial_pathway_name` the nested
`"initial_pathway"."pathway_name"` value; the `final_*` keys are absent
(`none`) until the function writes them. -/
structure Interaction where
  canonical_pathway : Option String
  initial_pathway_name : Option String
  final_pathway : Option String := none
  final_confidence : Option ℚ := none
  reassignment_reason : Option String := none
deriving Repr, DecidableEq

/-- One element of the oracle's `"reassignments"` array.
`interaction_index` models `reassign.get("interaction_index", 0)`
(an absent key is the default `0`); `best_pathway` models
`reassign.get("best_pathway")` (`none` = absent). -/
structure Reassignment where
  interaction_index : Int
  best_pathway : Option String
  confidence : ℚ
  reason : String
deriving Repr, DecidableEq

/-- Parsed `data` for a Stage 3 oracle response. -/
structure Stage3Data where
  reassignments : List Reassignment
deriving Repr, DecidableEq

/-- The fallback written on an out-of-vocabulary oracle answer
(`interactions[idx].get("canonical_pathway",
 interactions[idx].get("initial_pathway", {}).get("pathway_name"))`). -/
def fallback_assignment (ix : Interaction) : Option String :=
  match ix.canonical_pathway with
  | some c => some c
  | none => ix.initial_pathway_name

/-- One iteration of the `for reassign in reassignments` loop of
`reassign_interactions_batch`: bounds-check the 1-based index, then either
accept an in-vocabulary `best_pathway` or fall back to the current
assignment. -/
def apply_reassignment (all_pathways : List String)
    (ixs : List Interaction) (r : Reassignment) : List Interaction :=
  let idx : Int := r.interaction_index - 1
  if 0 ≤ idx ∧ idx < (ixs.length : Int) then
    match ixs[idx.toNat]? with
    | none => ixs
    | some ix =>
      match r.best_pathway with
      | some bp =>
        if bp ∈ all_pathways then
          ixs.set idx.toNat
            { ix with final_pathway := some bp,
                      final_confidence := some r.confidence,
                      reassignment_reason := some r.reason }
        else
          ixs.set idx.toNat { ix with final_pathway := fallback_assignment ix }
      | none =>
        ixs.set idx.toNat { ix with final_pathway := fallback_assignment ix }
  else ixs

/-- `stage3_reassign_interactions.reassign_interactions_batch`.
`Except.error` models the `raise ValueError`; an unsuccessful oracle call
or an unparseable payload returns the interactions unchanged. -/
def reassign_interactions_batch (interactions : List Interaction)
    (all_pathways : List String) (oracle : AIResult Stage3Data) :
    Except String (List Interaction) :=
  if BATCH_SIZE_STAGE3 < interactions.length then
    .error ("Batch size must be <= " ++ toString BATCH_SIZE_STAGE3)
  else if oracle.success then
    match oracle.data with
    | none => .ok interactions
    | some d => .ok (d.reassignments.foldl (apply_reassignment all_pathways) interactions)
  else
    .ok interactions

/-- The pathway an interaction ends the pass assigned to: the freshly
written `final_pathway` when present, otherwise the interaction keeps its
pre-call canonical assignment (`run_stage3_from_db` skips rows without a
`final_pathway`). -/
def resulting_assignment (ix : Interaction) : Option String :=
  match ix.final_pathway with
  | some f => some f
  | none => ix.canonical_pathway

/-! ## stage4_build_hierarchy_chains.py -/

/-- Parsed `data."hierarchy_chain"` of a single-pathway Stage 4 response:
the code reads `chain` (default `[]`), `root_category` and `confidence`;
only `chain` influences control flow. -/
structure Stage4Data where
  chain : List String
  root_category : Option String
  confidence : ℚ
deriving Repr, DecidableEq

/-- `check_history_for_chain`: the `PathwayHierarchyHistory` table is the
association list `history` keyed by `canonical_name`; `.first()` returns
the first matching row's stored chain. -/
def check_history_for_chain (history : List (String × List String))
    (pathway_name : String) : Option (List String) :=
  (history.find? (fun h => h.1 == pathway_name)).map (·.2)

/-- `check_if_fits_existing_hierarchy`: scan the chains built so far (dict
iteration order); on the first chain containing `pathway_name`, return its
prefix through the first occurrence (`chain[:chain.index(name) + 1]`). -/
def check_if_fits_existing_hierarchy (pathway_name : String) :
    List (String × List String) → Option (List String)
  | [] => none
  | (_, chain) :: rest =>
    if pathway_name ∈ chain then
      some (chain.take (chain.indexOf pathway_name + 1))
    else check_if_fits_existing_hierarchy pathway_name rest

/-- The chain-validation block shared by `build_hierarchy_chain` (lines
266-285) and `process_batch_hierarchy_response` (lines 397-410): reject an
empty chain, reject a first element outside `ROOT_CATEGORY_NAMES` (no root
is guessed), append `pathway_name` when the terminal differs, then
truncate chains longer than `MAX_HIERARCHY_DEPTH` to their first
`MAX_HIERARCHY_DEPTH` elements. -/
def validate_oracle_chain (pathway_name : String) (chain : List String) :
    Option (List String) :=
  match chain with
  | [] => none
  | c0 :: _ =>
    if c0 ∈ ROOT_CATEGORY_NAMES then
      let chain2 := if chain.getLast? = some pathway_name then chain
                    else chain ++ [pathway_name]
      some (if MAX_HIERARCHY_DEPTH < chain2.length then
              chain2.take MAX_HIERARCHY_DEPTH
            else chain2)
    else none

/-- `build_hierarchy_chain`: history lookup, then attach-to-existing, then
the oracle with validation.  Python truthiness: an empty cached chain or an
empty `existing_pathways` dict falls through.  `none` models returning
`None` (AI failure, empty chain, invalid root, or unparseable payload). -/
def build_hierarchy_chain (pathway_name : String)
    (history : List (String × List String))
    (existing_pathways : List (String × List String))
    (oracle : AIResult Stage4Data) : Option (List String) :=
  let cached := (check_history_for_chain history pathway_name).getD []
  if cached ≠ [] then some cached
  else
    let fit := ((if existing_pathways ≠ [] then
                   check_if_fits_existing_hierarchy pathway_name existing_pathways
                 else none)).getD []
    if fit ≠ [] then some fit
    else if oracle.success then
      match oracle.data with
      | none => none
      | some d => validate_oracle_chain pathway_name d.chain
    else none

/-- One element of a batch Stage 4 response's `"hierarchy_chains"` array. -/
structure BatchChainEntry where
  pathway_name : String
  chain : List String
  confidence : ℚ
deriving Repr, DecidableEq

/-- Character-level model of Python `str.strip()` (the kernel cannot
evaluate `String.trim`): drop leading and trailing whitespace. -/
def pyStrip (s : String) : String :=
  String.mk
    (((s.toList.dropWhile Char.isWhitespace).reverse.dropWhile
      Char.isWhitespace).reverse)

/-- Character-level model of Python `str.upper()` on the ASCII pathway
names the pipeline compares. -/
def pyUpper (s : String) : String :=
  String.mk (s.toList.map Char.toUpper)

/-- The `chain_map` lookup of `process_batch_hierarchy_response`: entries
with a nonempty stripped `pathway_name` are keyed by its uppercase form,
later entries overwriting earlier ones, and queried with the batch
pathway's stripped uppercase name. -/
def chainLookup (chains : List BatchChainEntry) (key : String) :
    Option BatchChainEntry :=
  (chains.filter (fun c => pyStrip c.pathway_name ≠ "")).reverse.find?
    (fun c => pyUpper (pyStrip c.pathway_name) == key)

/-- The per-pathway body of `process_batch_hierarchy_response`: look the
pathway up in `chain_map`; a missing entry or empty chain is skipped, and
the found chain goes through the same validation as
`build_hierarchy_chain` (the root check `continue`s, the terminal is
appended, overlong chains are truncated). -/
def process_one_batch_pathway (chains : List BatchChainEntry)
    (pathway_name : String) : Option (List String) :=
  match chainLookup chains (pyUpper (pyStrip pathway_name)) with
  | none => none
  | some cd => validate_oracle_chain pathway_name cd.chain

/-- `process_batch_hierarchy_response` restricted to the data it uses: the
batch's pathway names and the response's chain entries.  The returned
association list is the `new_chains` dict (only names whose chain
validates get an entry; `run_stage4_from_db` mutates the graph only for
names present in it). -/
def process_batch_hierarchy_response (batch : List String)
    (chains : List BatchChainEntry) : List (String × List String) :=
  match batch with
  | [] => []
  | name :: rest =>
    match process_one_batch_pathway chains name with
    | some chain => (name, chain) :: process_batch_hierarchy_response rest chains
    | none => process_batch_hierarchy_response rest chains

/-! ## The pathway graph (rows of the `Pathway` and `PathwayParent` tables) -/

/-- A `Pathway` row, with the columns the verified stages read or write.
`is_leaf`'s default stands in for the column default (the model schema is
outside `src/`); no verified claim depends on it. -/
structure Pathway where
  id : Nat
  name : String
  pathway_type : String
  hierarchy_level : Int
  is_leaf : Bool := false
  ai_generated : Bool := false
  description : Option String := none
  ontology_id : Option String := none
deriving Repr, DecidableEq

/-- A `PathwayParent` row (child → parent edge). -/
structure PathwayParent where
  child_pathway_id : Nat
  parent_pathway_id : Nat
  relationship_type : String
  confidence : ℚ
  source : String
  is_primary_chain : Bool
deriving Repr, DecidableEq

/-- The mutable database state the graph-mutating functions thread:
pathway rows, parent edges, and the autoincrement counter that
`db.session.flush()` draws fresh ids from. -/
structure DBState where
  pathways : List Pathway
  parents : List PathwayParent
  next_id : Nat
deriving Repr, DecidableEq

/-! ## stage5_add_siblings.py -/

/-- A validated sibling candidate as passed to `add_siblings_to_db`
(`name`, `description`, parsed `confidence`). -/
structure SiblingCandidate where
  name : String
  description : Option String
  confidence : ℚ
deriving Repr, DecidableEq

/-- The `existing.pathway_type != 'main'` upgrade-guarded write on the
first row matching the name (`.filter_by(name=...).first()`). -/
def setTypeSibling : List Pathway → String → List Pathway
  | [], _ => []
  | p :: rest, name =>
    if p.name = name then
      (if p.pathway_type ≠ "main" then { p with pathway_type := "sibling" } else p) :: rest
    else p :: setTypeSibling rest name

/-- The loop body of `add_siblings_to_db` for a single candidate: an
existing node of the same name is only subject to the kind write above
(then `continue` — no node, no edge); otherwise a fresh `'sibling'` node
plus a non-primary edge to `parent_pathway_id` are inserted. -/
def add_sibling_step (parent_pathway_id : Nat) (hierarchy_level : Int)
    (st : DBState) (sib : SiblingCandidate) : DBState :=
  if (st.pathways.find? (fun p => p.name == sib.name)).isSome then
    { st with pathways := setTypeSibling st.pathways sib.name }
  else
    { pathways := st.pathways ++
        [{ id := st.next_id, name := sib.name, pathway_type := "sibling",
           hierarchy_level := hierarchy_level, is_leaf := true,
           ai_generated := true, description := sib.description }],
      parents := st.parents ++
        [{ child_pathway_id := st.next_id, parent_pathway_id := parent_pathway_id,
           relationship_type := "is_a", confidence := sib.confidence,
           source := "AI", is_primary_chain := false }],
      next_id := st.next_id + 1 }

/-- `add_siblings_to_db` over a candidate list. -/
def add_siblings_to_db (siblings : List SiblingCandidate)
    (parent_pathway_id : Nat) (hierarchy_level : Int) (st : DBState) : DBState :=
  siblings.foldl (add_sibling_step parent_pathway_id hierarchy_level) st

/-! ## stage2_normalize_names.py

`calculate_similarity` composes the deterministic `normalize_for_comparison`
with `difflib.SequenceMatcher(...).ratio()`, a Python-standard-library
collaborator external to the repository; the composite similarity score is
therefore a parameter `sim` of the embedding (the verified properties are
claimed for every oracle response, hence for the actual difflib scores in
particular). -/

/-- `config.BATCH_SIZE_STAGE2 = 50` (name groups per oracle call). -/
def BATCH_SIZE_STAGE2 : Nat := 50

/-- The inner `for other in names` loop of `group_similar_names`: starting
from the singleton group `{name}` (and `used ∪ {name}`), add every not-yet
used name whose similarity to the anchor reaches the threshold.  Groups are
Python sets; the list order here is insertion order, and only membership,
size and minimum are ever consumed. -/
def collect_group (sim : String → String → ℚ) (threshold : ℚ)
    (anchor : String) (names : List String) (used : List String) :
    List String × List String :=
  names.foldl
    (fun acc other =>
      if other ∈ acc.2 then acc
      else if threshold ≤ sim anchor other then
        (acc.1 ++ [other], acc.2 ++ [other])
      else acc)
    ([anchor], used ++ [anchor])

/-- The outer loop of `group_similar_names`: `all_names` is the full input
list the inner loop rescans, the second list argument is the remaining
anchors, the third the accumulated `used` set. -/
def group_similar_names_aux (sim : String → String → ℚ) (threshold : ℚ)
    (all_names : List String) : List String → List String → List (List String)
  | [], _ => []
  | n :: rest, used =>
    if n ∈ used then group_similar_names_aux sim threshold all_names rest used
    else
      let gu := collect_group sim threshold n all_names used
      gu.1 :: group_similar_names_aux sim threshold all_names rest gu.2

/-- `group_similar_names`. -/
def group_similar_names (sim : String → String → ℚ) (threshold : ℚ)
    (names : List String) : List (List String) :=
  group_similar_names_aux sim threshold names names []

/-- One element of the oracle's `"normalizations"` array; the code reads
only `norm.get("mappings", {})`, an ordered raw-name → canonical dict. -/
structure Normalization where
  mappings : List (String × String)
deriving Repr, DecidableEq

/-- Python-dict insertion/update: overwrite the value of an existing key in
place, else append the pair. -/
def dictUpsert (m : List (String × String)) (k v : String) :
    List (String × String) :=
  if m.any (fun kv => kv.1 == k) then
    m.map (fun kv => if kv.1 == k then (k, v) else kv)
  else m ++ [(k, v)]

/-- Code-point lexicographic order on character lists (the comparison
Python's string `<` performs; spelled out because the built-in `String`
order does not evaluate in the kernel). -/
def charListLt : List Char → List Char → Bool
  | [], [] => false
  | [], _ :: _ => true
  | _ :: _, [] => false
  | a :: as, b :: bs =>
    if a.toNat < b.toNat then true
    else if b.toNat < a.toNat then false
    else charListLt as bs

/-- Python string `<`. -/
def pyStrLt (a b : String) : Bool := charListLt a.toList b.toList

/-- `sorted(group)[0]`: the lexicographically least member of a (nonempty)
group, used by the deterministic oracle-failure fallback. -/
def sortedHead : List String → String
  | [] => ""
  | g :: rest => rest.foldl (fun m s => if pyStrLt s m then s else m) g

/-- Processing of one ambiguous-group batch in
`normalize_pathway_names_batch`: on `result.success and result.data` the
oracle's group mappings are written into the dict; otherwise every group of
the batch falls back to its alphabetically first member as canonical.
`data = none` models a falsy (`None` or empty) payload. -/
def apply_oracle_batch (oracleResult : AIResult (List Normalization))
    (batch : List (List String)) (m : List (String × String)) :
    List (String × String) :=
  match oracleResult.success, oracleResult.data with
  | true, some norms =>
    norms.foldl
      (fun m norm => norm.mappings.foldl (fun m ov => dictUpsert m ov.1 ov.2) m) m
  | _, _ =>
    batch.foldl
      (fun m group =>
        let canonical := sortedHead group
        group.foldl (fun m name => dictUpsert m name canonical) m) m

/-- Helper for `chunkList`: `acc` is the current chunk (reversed) and
`room` the capacity left in it. -/
def chunkGo (n : Nat) : List α → List α → Nat → List (List α)
  | [], acc, _ => [acc.reverse]
  | x :: xs, acc, room =>
    if room = 0 then acc.reverse :: chunkGo n xs [x] (n - 1)
    else chunkGo n xs (x :: acc) (room - 1)

/-- `range(0, len(l), n)` chunking of the ambiguous-group list (only ever
used with the positive step `BATCH_SIZE_STAGE2`). -/
def chunkList (n : Nat) (l : List α) : List (List α) :=
  match l with
  | [] => []
  | x :: xs => chunkGo n xs [x] (n - 1)

/-- `normalize_pathway_names_batch`: fuzzy grouping, oracle confirmation of
multi-member groups batch by batch (`oracle i` is the response to the
`i`-th batch), then self-mapping of single-member groups not already
mapped.  Returns the `mappings` dict as an ordered association list. -/
def normalize_pathway_names_batch (sim : String → String → ℚ)
    (threshold : ℚ) (names : List String)
    (oracle : Nat → AIResult (List Normalization)) : List (String × String) :=
  if names = [] then []
  else
    let groups := group_similar_names sim threshold names
    let ambiguous := groups.filter (fun g => 1 < g.length)
    let batches := chunkList BATCH_SIZE_STAGE2 ambiguous
    let m := batches.enum.foldl
      (fun m ib => apply_oracle_batch (oracle ib.1) ib.2 m) []
    groups.foldl
      (fun m g =>
        match g with
        | [name] => if m.any (fun kv => kv.1 == name) then m else m ++ [(name, name)]
        | _ => m) m

/-- The persistence loop of `run_stage2_from_db` over the
`PathwayCanonicalName` table (an association list `initial_name →
canonical_name`): each produced mapping is upserted — an existing row's
`canonical_name` is overwritten, otherwise a row is inserted.  (The rows'
`match_method`/`similarity_score` metadata and the propagation into
`PathwayInitialAssignment` do not bear on the verified claims.) -/
def run_stage2_from_db (sim : String → String → ℚ) (threshold : ℚ)
    (db : List (String × String)) (names : List String)
    (oracle : Nat → AIResult (List Normalization)) : List (String × String) :=
  (normalize_pathway_names_batch sim threshold names oracle).foldl
    (fun db kv => dictUpsert db kv.1 kv.2) db

/-- A concrete similarity stand-in for the external difflib collaborator,
used by the concrete evaluations: `"abcd"`/`"abce"` score 3/4 (their
actual `SequenceMatcher.ratio()` after pre-normalization is 0.75 ≥ the
0.70 threshold, so difflib groups them too), equal strings score 1,
everything else 0. -/
def simStage2 (a b : String) : ℚ :=
  if a = b then 1
  else if (a = "abcd" ∧ b = "abce") ∨ (a = "abce" ∧ b = "abcd") then mkRat 3 4
  else 0

/-- A Stage 2 oracle whose every call fails (exercises the deterministic
fallback). -/
def oracleFailS2 : Nat → AIResult (List Normalization) := fun _ => ⟨false, none⟩

/-! ## stage7_validate_and_commit.py -/

/-- `child_map` built from the `PathwayParent` rows:
`child_map[rel.parent_pathway_id].add(rel.child_pathway_id)` (a set, hence
the dedup). -/
def childMap (parents : List PathwayParent) (pid : Nat) : List Nat :=
  ((parents.filter (fun e => e.parent_pathway_id == pid)).map
    (·.child_pathway_id)).dedup

/-- `get_interaction_count_in_subtree`: the node's own interaction count
plus the counts of all children, recursively.  `counts` is the per-pathway
direct-interaction tally (`defaultdict(int)`).  The Python recursion is
unbounded (and memoized); the `fuel` argument makes it total here, and
every theorem hypothesizes a topological measure under which the graph is
acyclic and the fuel suffices, in which case the value is fuel-independent
(`get_interaction_count_in_subtree_stable`). -/
def get_interaction_count_in_subtree (parents : List PathwayParent)
    (counts : Nat → Nat) : Nat → Nat → Nat
  | 0, _ => 0
  | fuel + 1, pid =>
    counts pid +
      ((childMap parents pid).map
        (get_interaction_count_in_subtree parents counts fuel)).sum

/-- `root_ids`: ids of pathways whose *name* is in `ROOT_CATEGORY_NAMES`
(deliberately not `hierarchy_level == 0`). -/
def rootIdsOf (pathways : List Pathway) : List Nat :=
  (pathways.filter (fun p => ROOT_CATEGORY_NAMES.contains p.name)).map (·.id)

/-- The dead-pathway scan of `prune_dead_pathways`: every pathway that is
not a root, not of `'sibling'` kind, and has a zero interaction count in
its subtree snapshot. -/
def prune_dead_pathways (fuel : Nat) (pathways : List Pathway)
    (parents : List PathwayParent) (counts : Nat → Nat) : List Nat :=
  let roots := rootIdsOf pathways
  (pathways.filter (fun p =>
    !(roots.contains p.id) && p.pathway_type != "sibling" &&
      get_interaction_count_in_subtree parents counts fuel p.id == 0)).map (·.id)

/-- The `dry_run=False` branch: delete every dead pathway and all its
incident edges (the interaction-link table is untouched — a dead pathway
has no links). -/
def prune_and_delete (fuel : Nat) (pathways : List Pathway)
    (parents : List PathwayParent) (counts : Nat → Nat) :
    List Pathway × List PathwayParent :=
  let dead := prune_dead_pathways fuel pathways parents counts
  (pathways.filter (fun p => !(dead.contains p.id)),
   parents.filter (fun e =>
     !(dead.contains e.child_pathway_id) && !(dead.contains e.parent_pathway_id)))

/-- `b` lies in the transitive subtree of `a` (itself included): the
reflexive-transitive closure of the parent→child edges. -/
def InSubtree (parents : List PathwayParent) (a b : Nat) : Prop :=
  Relation.ReflTransGen (fun x y => y ∈ childMap parents x) a b

/-- The orphan-root test of `fix_orphan_pathways`: `hierarchy_level == 0`
and name outside the fixed root set. -/
def is_orphan_root (p : Pathway) : Bool :=
  p.hierarchy_level == 0 && !(ROOT_CATEGORY_NAMES.contains p.name)

/-- The repair edge `fix_orphan_pathways` inserts: confidence 0.5, source
`'orphan_fix'`, primary. -/
def orphan_fix_edge (orphan_id fallback_id : Nat) : PathwayParent :=
  { child_pathway_id := orphan_id, parent_pathway_id := fallback_id,
    relationship_type := "is_a", confidence := mkRat 1 2,
    source := "orphan_fix", is_primary_chain := true }

/-- The fallback-root resolution of `fix_orphan_pathways`: the first
pathway named `"Protein Quality Control"`, created at level 0 when
missing.  Returns its id and the (possibly extended) state. -/
def orphan_fallback (st : DBState) : Nat × DBState :=
  match st.pathways.find? (fun p => p.name == "Protein Quality Control") with
  | some fb => (fb.id, st)
  | none =>
    (st.next_id,
     { st with
         pathways := st.pathways ++
           [{ id := st.next_id, name := "Protein Quality Control",
              pathway_type := "main", hierarchy_level := 0,
              ai_generated := false, ontology_id := some "GO:0006457" }],
         next_id := st.next_id + 1 })

/-- The per-orphan loop body of `fix_orphan_pathways`: set the orphan's
level to 1, and create the repair edge only when the orphan has no parent
edge at all (`filter_by(child_pathway_id=orphan.id).first()` is `None`). -/
def fix_orphan_step (fallback_id : Nat) (st2 : DBState) (orphan : Pathway) :
    DBState :=
  { st2 with
      pathways := st2.pathways.map (fun p =>
        if p.id == orphan.id then { p with hierarchy_level := 1 } else p),
      parents :=
        if (st2.parents.find? (fun e => e.child_pathway_id == orphan.id)).isSome
        then st2.parents
        else st2.parents ++ [orphan_fix_edge orphan.id fallback_id] }

/-- `fix_orphan_pathways`: select the orphans; if there are none, return
unchanged; otherwise resolve the fallback root and run the repair loop. -/
def fix_orphan_pathways (st : DBState) : DBState :=
  let orphans := st.pathways.filter is_orphan_root
  if orphans = [] then st
  else orphans.foldl (fix_orphan_step (orphan_fallback st).1) (orphan_fallback st).2

/-- The reassignment entries the Stage 3 loop actually iterates: the
parsed `"reassignments"` array on a successful call, nothing otherwise. -/
def oracle_reassignments (oracle : AIResult Stage3Data) : List Reassignment :=
  match oracle.data with
  | some d => if oracle.success then d.reassignments else []
  | none => []

/-! # Theorems -/

/-! ## Stage 3: batch-size guard and closed-set refinement -/

theorem apply_reassignment_out_of_range (all : List String)
    (ixs : List Interaction) (r : Reassignment)
    (hcond : ¬(0 ≤ r.interaction_index - 1 ∧
               r.interaction_index - 1 < (ixs.length : Int))) :
    apply_reassignment all ixs r = ixs := by
  unfold apply_reassignment
  rw [if_neg hcond]

theorem apply_reassignment_in_set (all : List String)
    (ixs : List Interaction) (r : Reassignment)
    (hcond : 0 ≤ r.interaction_index - 1 ∧
             r.interaction_index - 1 < (ixs.length : Int))
    (ix0 : Interaction)
    (hget : ixs[(r.interaction_index - 1).toNat]? = some ix0)
    (bp : String) (hbp : r.best_pathway = some bp) (hin : bp ∈ all) :
    apply_reassignment all ixs r =
      ixs.set (r.interaction_index - 1).toNat
        { ix0 with final_pathway := some bp,
                   final_confidence := some r.confidence,
                   reassignment_reason := some r.reason } := by
  unfold apply_reassignment
  rw [if_pos hcond, hget, hbp]
  simp [hin]

theorem apply_reassignment_not_in_set (all : List String)
    (ixs : List Interaction) (r : Reassignment)
    (hcond : 0 ≤ r.interaction_index - 1 ∧
             r.interaction_index - 1 < (ixs.length : Int))
    (ix0 : Interaction)
    (hget : ixs[(r.interaction_index - 1).toNat]? = some ix0)
    (bp : String) (hbp : r.best_pathway = some bp) (hin : bp ∉ all) :
    apply_reassignment all ixs r =
      ixs.set (r.interaction_index - 1).toNat
        { ix0 with final_pathway := fallback_assignment ix0 } := by
  unfold apply_reassignment
  rw [if_pos hcond, hget, hbp]
  simp [hin]

theorem apply_reassignment_no_best (all : List String)
    (ixs : List Interaction) (r : Reassignment)
    (hcond : 0 ≤ r.interaction_index - 1 ∧
             r.interaction_index - 1 < (ixs.length : Int))
    (ix0 : Interaction)
    (hget : ixs[(r.interaction_index - 1).toNat]? = some ix0)
    (hbp : r.best_pathway = none) :
    apply_reassignment all ixs r =
      ixs.set (r.interaction_index - 1).toNat
        { ix0 with final_pathway := fallback_assignment ix0 } := by
  unfold apply_reassignment
  rw [if_pos hcond, hget, hbp]

theorem apply_reassignment_pres (all : List String) (ixs : List Interaction)
    (r : Reassignment) (P : Interaction → Prop)
    (hP : ∀ ix ∈ ixs, P ix)
    (hstep : ∀ ix, P ix → ∀ bp, bp ∈ all →
      P { ix with final_pathway := some bp, final_confidence := some r.confidence,
                  reassignment_reason := some r.reason })
    (hfb : ∀ ix, P ix → P { ix with final_pathway := fallback_assignment ix }) :
    ∀ ix ∈ apply_reassignment all ixs r, P ix := by
  intro ix hmem
  by_cases hcond : 0 ≤ r.interaction_index - 1 ∧
      r.interaction_index - 1 < (ixs.length : Int)
  · cases hget : ixs[(r.interaction_index - 1).toNat]? with
    | none =>
      exfalso
      rw [List.getElem?_eq_none_iff] at hget
      omega
    | some ix0 =>
      have hix0 : ix0 ∈ ixs := List.getElem?_mem hget
      cases hbp : r.best_pathway with
      | some bp =>
        by_cases hin : bp ∈ all
        · rw [apply_reassignment_in_set all ixs r hcond ix0 hget bp hbp hin] at hmem
          rcases List.mem_or_eq_of_mem_set hmem with h | h
          · exact hP ix h
          · subst h; exact hstep ix0 (hP ix0 hix0) bp hin
        · rw [apply_reassignment_not_in_set all ixs r hcond ix0 hget bp hbp hin] at hmem
          rcases List.mem_or_eq_of_mem_set hmem with h | h
          · exact hP ix h
          · subst h; exact hfb ix0 (hP ix0 hix0)
      | none =>
        rw [apply_reassignment_no_best all ixs r hcond ix0 hget hbp] at hmem
        rcases List.mem_or_eq_of_mem_set hmem with h | h
        · exact hP ix h
        · subst h; exact hfb ix0 (hP ix0 hix0)
  · rw [apply_reassignment_out_of_range all ixs r hcond] at hmem
    exact hP ix hmem

theorem foldl_reassign_pres (all : List String) (P : Interaction → Prop)
    (hstep : ∀ (r : Reassignment) ix, P ix → ∀ bp, bp ∈ all →
      P { ix with final_pathway := some bp, final_confidence := some r.confidence,
                  reassignment_reason := some r.reason })
    (hfb : ∀ ix, P ix → P { ix with final_pathway := fallback_assignment ix }) :
    ∀ (rs : List Reassignment) (ixs : List Interaction),
      (∀ ix ∈ ixs, P ix) →
      ∀ ix ∈ rs.foldl (apply_reassignment all) ixs, P ix := by
  intro rs
  induction rs with
  | nil => intro ixs hP; simpa using hP
  | cons r rest ih =>
    intro ixs hP
    simp only [List.foldl_cons]
    exact ih _ (apply_reassignment_pres all ixs r P hP (hstep r) hfb)

theorem apply_reassignment_keep (all : List String) (i : Nat) (c : String)
    (ixs : List Interaction) (r : Reassignment)
    (hr : r.interaction_index - 1 = (i : Int) →
      ∀ bp, r.best_pathway = some bp → bp ∉ all)
    (ix0 : Interaction) (hget : ixs[i]? = some ix0)
    (hcan : ix0.canonical_pathway = some c)
    (hfin : ix0.final_pathway = none ∨ ix0.final_pathway = some c) :
    ∃ ix1, (apply_reassignment all ixs r)[i]? = some ix1 ∧
      ix1.canonical_pathway = some c ∧
      (ix1.final_pathway = none ∨ ix1.final_pathway = some c) := by
  have hlen : i < ixs.length := by
    have := List.getElem?_eq_some.mp hget
    exact this.1
  by_cases hcond : 0 ≤ r.interaction_index - 1 ∧
      r.interaction_index - 1 < (ixs.length : Int)
  · cases hget2 : ixs[(r.interaction_index - 1).toNat]? with
    | none =>
      exfalso
      rw [List.getElem?_eq_none_iff] at hget2
      omega
    | some ix2 =>
      by_cases hij : (r.interaction_index - 1).toNat = i
      · have htar : r.interaction_index - 1 = (i : Int) := by omega
        have hbad := hr htar
        have hix02 : ix2 = ix0 := by
          rw [hij] at hget2
          rw [hget2] at hget
          exact Option.some_injective _ hget
        subst hix02
        have hfb : fallback_assignment ix2 = some c := by
          unfold fallback_assignment; rw [hcan]
        cases hbp : r.best_pathway with
        | some bp =>
          rw [apply_reassignment_not_in_set all ixs r hcond ix2 hget2 bp hbp
            (hbad bp hbp)]
          refine ⟨{ ix2 with final_pathway := fallback_assignment ix2 }, ?_,
            hcan, Or.inr hfb⟩
          rw [hij]
          exact List.getElem?_set_self hlen
        | none =>
          rw [apply_reassignment_no_best all ixs r hcond ix2 hget2 hbp]
          refine ⟨{ ix2 with final_pathway := fallback_assignment ix2 }, ?_,
            hcan, Or.inr hfb⟩
          rw [hij]
          exact List.getElem?_set_self hlen
      · cases hbp : r.best_pathway with
        | some bp =>
          by_cases hin : bp ∈ all
          · rw [apply_reassignment_in_set all ixs r hcond ix2 hget2 bp hbp hin]
            exact ⟨ix0, by rw [List.getElem?_set_ne hij]; exact hget, hcan, hfin⟩
          · rw [apply_reassignment_not_in_set all ixs r hcond ix2 hget2 bp hbp hin]
            exact ⟨ix0, by rw [List.getElem?_set_ne hij]; exact hget, hcan, hfin⟩
        | none =>
          rw [apply_reassignment_no_best all ixs r hcond ix2 hget2 hbp]
          exact ⟨ix0, by rw [List.getElem?_set_ne hij]; exact hget, hcan, hfin⟩
  · rw [apply_reassignment_out_of_range all ixs r hcond]
    exact ⟨ix0, hget, hcan, hfin⟩

theorem foldl_reassign_keep (all : List String) (i : Nat) (c : String) :
    ∀ (rs : List Reassignment) (ixs : List Interaction),
      (∀ r ∈ rs, r.interaction_index - 1 = (i : Int) →
        ∀ bp, r.best_pathway = some bp → bp ∉ all) →
      ∀ ix0, ixs[i]? = some ix0 →
        ix0.canonical_pathway = some c →
        (ix0.final_pathway = none ∨ ix0.final_pathway = some c) →
      ∃ ix1, (rs.foldl (apply_reassignment all) ixs)[i]? = some ix1 ∧
        ix1.canonical_pathway = some c ∧
        (ix1.final_pathway = none ∨ ix1.final_pathway = some c) := by
  intro rs
  induction rs with
  | nil => intro ixs _ ix0 hget hcan hfin; exact ⟨ix0, hget, hcan, hfin⟩
  | cons r rest ih =>
    intro ixs hrs ix0 hget hcan hfin
    obtain ⟨ix1, hget1, hcan1, hfin1⟩ :=
      apply_reassignment_keep all i c ixs r (hrs r (List.mem_cons_self r rest)) ix0
        hget hcan hfin
    simp only [List.foldl_cons]
    exact ih _ (fun r' hr' => hrs r' (List.mem_cons_of_mem r hr')) ix1 hget1 hcan1 hfin1

/-- C10: `reassign_interactions_batch` raises `ValueError` exactly on
batches larger than the hardcoded `BATCH_SIZE_STAGE3 = 5`, and never
raises the size error on batches of at most 5 interactions, whatever the
vocabulary or oracle response. -/
theorem stage3_batch_size_guard (ixs : List Interaction) (all : List String)
    (oracle : AIResult Stage3Data) :
    (BATCH_SIZE_STAGE3 < ixs.length →
      reassign_interactions_batch ixs all oracle =
        .error ("Batch size must be <= " ++ toString BATCH_SIZE_STAGE3)) ∧
    (ixs.length ≤ BATCH_SIZE_STAGE3 →
      ∀ msg, reassign_interactions_batch ixs all oracle ≠ .error msg) := by
  constructor
  · intro h
    unfold reassign_interactions_batch
    rw [if_pos h]
  · intro h msg
    unfold reassign_interactions_batch
    rw [if_neg (by omega)]
    cases hs : oracle.success with
    | false => simp
    | true =>
      cases oracle.data with
      | none => simp
      | some d => simp

theorem stage3_batch_size_guard_witness :
    reassign_interactions_batch
      (List.replicate 6 { canonical_pathway := none, initial_pathway_name := none })
      [] ⟨false, none⟩ = .error "Batch size must be <= 5" ∧
    reassign_interactions_batch [] [] ⟨false, none⟩ ≠ .error "Batch size must be <= 5" := by
  constructor
  · exact (stage3_batch_size_guard _ _ _).1 (by decide)
  · exact (stage3_batch_size_guard _ _ _).2 (by decide) _

/-- C1: with a canonical vocabulary `all_pathways` covering every
interaction's pre-call canonical assignment, every interaction ends the
refinement pass assigned to a member of `all_pathways`; and an interaction
all of whose oracle answers are outside the vocabulary (in particular a
`best_pathway` not in `all_pathways`) keeps exactly its pre-call canonical
assignment. -/
theorem stage3_closed_set_refinement (ixs : List Interaction)
    (all : List String) (oracle : AIResult Stage3Data) (out : List Interaction)
    (hpre : ∀ ix ∈ ixs, ix.final_pathway = none)
    (hvocab : ∀ ix ∈ ixs, ∃ c, ix.canonical_pathway = some c ∧ c ∈ all)
    (hok : reassign_interactions_batch ixs all oracle = .ok out) :
    (∀ ix ∈ out, ∃ c, resulting_assignment ix = some c ∧ c ∈ all) ∧
    (∀ (i : Nat) (ix0 : Interaction) (c : String),
      ixs[i]? = some ix0 → ix0.canonical_pathway = some c →
      (∀ r ∈ oracle_reassignments oracle, r.interaction_index - 1 = (i : Int) →
        ∀ bp, r.best_pathway = some bp → bp ∉ all) →
      ∃ ix1, out[i]? = some ix1 ∧ resulting_assignment ix1 = some c) := by
  have hP : ∀ ix ∈ ixs,
      (∃ c, ix.canonical_pathway = some c ∧ c ∈ all) ∧
      (ix.final_pathway = none ∨ ∃ b ∈ all, ix.final_pathway = some b) := by
    intro ix h
    exact ⟨hvocab ix h, Or.inl (hpre ix h)⟩
  have hres : ∀ ix : Interaction,
      (∃ c, ix.canonical_pathway = some c ∧ c ∈ all) →
      (ix.final_pathway = none ∨ ∃ b ∈ all, ix.final_pathway = some b) →
      ∃ c, resulting_assignment ix = some c ∧ c ∈ all := by
    intro ix ⟨c, hc, hcmem⟩ hfin
    rcases hfin with h | ⟨b, hbmem, hb⟩
    · exact ⟨c, by unfold resulting_assignment; rw [h, hc], hcmem⟩
    · exact ⟨b, by unfold resulting_assignment; rw [hb], hbmem⟩
  unfold reassign_interactions_batch at hok
  split at hok
  · exact absurd hok (by simp)
  · split at hok
    · cases hdata : oracle.data with
      | none =>
        rw [hdata] at hok
        have hout : out = ixs := by
          cases hok; rfl
        subst hout
        constructor
        · intro ix h; exact hres ix (hvocab ix h) (Or.inl (hpre ix h))
        · intro i ix0 c hget hcan _
          refine ⟨ix0, hget, ?_⟩
          unfold resulting_assignment
          rw [hpre ix0 (List.getElem?_mem hget), hcan]
      | some d =>
        rw [hdata] at hok
        have hout : out = d.reassignments.foldl (apply_reassignment all) ixs := by
          cases hok; rfl
        subst hout
        rename_i hsz hsucc
        constructor
        · intro ix h
          have := foldl_reassign_pres all
            (fun ix => (∃ c, ix.canonical_pathway = some c ∧ c ∈ all) ∧
              (ix.final_pathway = none ∨ ∃ b ∈ all, ix.final_pathway = some b))
            (by intro r ix ⟨hc, _⟩ bp hbp; exact ⟨hc, Or.inr ⟨bp, hbp, rfl⟩⟩)
            (by
              intro ix ⟨⟨c, hc, hcmem⟩, _⟩
              refine ⟨⟨c, hc, hcmem⟩, Or.inr ⟨c, hcmem, ?_⟩⟩
              show fallback_assignment ix = some c
              unfold fallback_assignment; rw [hc])
            d.reassignments ixs hP ix h
          exact hres ix this.1 this.2
        · intro i ix0 c hget hcan hbad
          have hentries : oracle_reassignments oracle = d.reassignments := by
            simp [oracle_reassignments, hdata, hsucc]
          rw [hentries] at hbad
          obtain ⟨ix1, hget1, hcan1, hfin1⟩ :=
            foldl_reassign_keep all i c d.reassignments ixs hbad ix0 hget hcan
              (Or.inl (hpre ix0 (List.getElem?_mem hget)))
          refine ⟨ix1, hget1, ?_⟩
          unfold resulting_assignment
          rcases hfin1 with h | h
          · rw [h, hcan1]
          · rw [h]
    · have hout : out = ixs := by cases hok; rfl
      subst hout
      constructor
      · intro ix h; exact hres ix (hvocab ix h) (Or.inl (hpre ix h))
      · intro i ix0 c hget hcan _
        refine ⟨ix0, hget, ?_⟩
        unfold resulting_assignment
        rw [hpre ix0 (List.getElem?_mem hget), hcan]

theorem stage3_closed_set_refinement_witness :
    (∀ ix ∈ [({ canonical_pathway := some "A", initial_pathway_name := some "a0",
                final_pathway := some "A" } : Interaction)],
      ∃ c, resulting_assignment ix = some c ∧ c ∈ ["A", "B"]) ∧
    (∃ ix1,
      ([({ canonical_pathway := some "A", initial_pathway_name := some "a0",
           final_pathway := some "A" } : Interaction)])[0]? = some ix1 ∧
      resulting_assignment ix1 = some "A") := by
  have h := stage3_closed_set_refinement
    [{ canonical_pathway := some "A", initial_pathway_name := some "a0" }]
    ["A", "B"]
    ⟨true, some ⟨[⟨1, some "Nonexistent Pathway", mkRat 9 10, "r"⟩]⟩⟩
    [{ canonical_pathway := some "A", initial_pathway_name := some "a0",
       final_pathway := some "A" }]
    (by decide)
    (by intro ix h; refine ⟨"A", ?_, by decide⟩; simp at h; rw [h])
    rfl
  refine ⟨h.1, ?_⟩
  exact h.2 0 { canonical_pathway := some "A", initial_pathway_name := some "a0" }
    "A" (by decide) (by decide) (by decide)

/-! ## Stage 4: chain validation -/

theorem validate_oracle_chain_spec (name : String) (c : List String) (c0 : String)
    (hhead : c.head? = some c0) (hroot : c0 ∈ ROOT_CATEGORY_NAMES) :
    validate_oracle_chain name c =
      some ((if c.getLast? = some name then c else c ++ [name]).take
        MAX_HIERARCHY_DEPTH) := by
  cases c with
  | nil => simp at hhead
  | cons x xs =>
    have hx : x = c0 := by simpa using hhead
    have hr : x ∈ ROOT_CATEGORY_NAMES := hx ▸ hroot
    show (if x ∈ ROOT_CATEGORY_NAMES then _ else _) = _
    rw [if_pos hr]
    congr 1
    by_cases h : MAX_HIERARCHY_DEPTH <
        (if (x :: xs).getLast? = some name then x :: xs else (x :: xs) ++ [name]).length
    · rw [if_pos h]
    · rw [if_neg h, List.take_of_length_le (by omega)]

theorem validate_oracle_chain_bad_root (name : String) (c : List String) (c0 : String)
    (hhead : c.head? = some c0) (hroot : c0 ∉ ROOT_CATEGORY_NAMES) :
    validate_oracle_chain name c = none := by
  cases c with
  | nil => simp at hhead
  | cons x xs =>
    have hx : x = c0 := by simpa using hhead
    have hr : x ∉ ROOT_CATEGORY_NAMES := hx ▸ hroot
    show (if x ∈ ROOT_CATEGORY_NAMES then _ else _) = _
    rw [if_neg hr]

theorem build_hierarchy_chain_oracle_path (name : String)
    (history existing : List (String × List String)) (oracle : AIResult Stage4Data)
    (hhist : check_history_for_chain history name = none)
    (hfit : check_if_fits_existing_hierarchy name existing = none)
    (hsucc : oracle.success = true) (d : Stage4Data) (hdata : oracle.data = some d) :
    build_hierarchy_chain name history existing oracle =
      validate_oracle_chain name d.chain := by
  unfold build_hierarchy_chain
  rw [hhist]
  simp only [Option.getD_none, ne_eq, not_true_eq_false, if_false]
  by_cases hex : existing = []
  · subst hex
    simp [hsucc, hdata]
  · simp [hex, hfit, hsucc, hdata]

/-- C2 (as stated) is falsified by truncation: the oracle returns a
non-empty 10-element chain with valid root whose terminal is a near-miss,
`build_hierarchy_chain` appends the canonical name and then truncates to
10 levels, cutting the appended canonical name back off — the returned
chain does not end with the canonical name. -/
theorem stage4_truncation_drops_terminal :
    build_hierarchy_chain "X" [] []
        ⟨true, some ⟨["Metabolism", "B", "C", "D", "E", "F", "G", "H", "I", "J"],
          none, mkRat 9 10⟩⟩
      = some ["Metabolism", "B", "C", "D", "E", "F", "G", "H", "I", "J"] ∧
    (["Metabolism", "B", "C", "D", "E", "F", "G", "H", "I", "J"] :
      List String).getLast? ≠ some "X" := by
  constructor
  · rfl
  · decide

/-- C2 amended: when the history and attach-to-existing steps miss and
the oracle returns a non-empty chain whose first element is a valid root,
`build_hierarchy_chain` returns that chain with the canonical name
appended whenever the oracle's terminal differs, truncated to its first
`MAX_HIERARCHY_DEPTH = 10` elements; the returned chain ends with the
canonical name whenever the post-append chain is within the 10-level cap
(truncation of longer chains may cut the appended terminal off). -/
theorem stage4_chain_terminal_and_cap (name : String)
    (history existing : List (String × List String)) (oracle : AIResult Stage4Data)
    (d : Stage4Data) (c0 : String)
    (hhist : check_history_for_chain history name = none)
    (hfit : check_if_fits_existing_hierarchy name existing = none)
    (hsucc : oracle.success = true) (hdata : oracle.data = some d)
    (hhead : d.chain.head? = some c0) (hroot : c0 ∈ ROOT_CATEGORY_NAMES) :
    build_hierarchy_chain name history existing oracle =
      some ((if d.chain.getLast? = some name then d.chain else d.chain ++ [name]).take
        MAX_HIERARCHY_DEPTH) ∧
    ((if d.chain.getLast? = some name then d.chain else d.chain ++ [name]).length ≤
        MAX_HIERARCHY_DEPTH →
      ∃ r, build_hierarchy_chain name history existing oracle = some r ∧
        r.getLast? = some name) := by
  have hb := build_hierarchy_chain_oracle_path name history existing oracle
    hhist hfit hsucc d hdata
  have hv := validate_oracle_chain_spec name d.chain c0 hhead hroot
  refine ⟨hb.trans hv, ?_⟩
  intro hlen
  refine ⟨_, hb.trans hv, ?_⟩
  rw [List.take_of_length_le hlen]
  by_cases hlast : d.chain.getLast? = some name
  · rw [if_pos hlast]; exact hlast
  · rw [if_neg hlast]; exact List.getLast?_concat _

theorem stage4_chain_terminal_and_cap_witness :
    build_hierarchy_chain "Aggrephagy" [] []
        ⟨true, some ⟨["Protein Quality Control", "Autophagy",
          "Selective Autophagy", "Aggrephagy"], none, mkRat 9 10⟩⟩
      = some ["Protein Quality Control", "Autophagy",
          "Selective Autophagy", "Aggrephagy"] ∧
    (∃ r, build_hierarchy_chain "Aggrephagy" [] []
        ⟨true, some ⟨["Protein Quality Control", "Autophagy",
          "Selective Autophagy", "Aggrephagy"], none, mkRat 9 10⟩⟩
      = some r ∧ r.getLast? = some "Aggrephagy") := by
  have h := stage4_chain_terminal_and_cap "Aggrephagy" [] []
    ⟨true, some ⟨["Protein Quality Control", "Autophagy",
      "Selective Autophagy", "Aggrephagy"], none, mkRat 9 10⟩⟩
    ⟨["Protein Quality Control", "Autophagy",
      "Selective Autophagy", "Aggrephagy"], none, mkRat 9 10⟩
    "Protein Quality Control" rfl rfl rfl rfl rfl (by decide)
  exact ⟨h.1.trans (by decide), h.2 (by decide)⟩

theorem lookup_process_batch_none (chains : List BatchChainEntry) (name : String)
    (hnone : process_one_batch_pathway chains name = none) :
    ∀ batch, (process_batch_hierarchy_response batch chains).lookup name = none := by
  intro batch
  induction batch with
  | nil => rfl
  | cons b rest ih =>
    show (match process_one_batch_pathway chains b with
      | some chain => (b, chain) :: process_batch_hierarchy_response rest chains
      | none => process_batch_hierarchy_response rest chains).lookup name = none
    cases hb : process_one_batch_pathway chains b with
    | none => exact ih
    | some chain =>
      show ((b, chain) :: process_batch_hierarchy_response rest chains).lookup name
        = none
      have hbn : (name == b) = false := by
        by_cases heq : name = b
        · subst heq; rw [hnone] at hb; cases hb
        · simpa using heq
      simp only [List.lookup, hbn]
      exact ih

/-- C3: an oracle chain whose first element is not in the fixed root set is
rejected — `build_hierarchy_chain` returns `None` without guessing a root,
and the batch processor records no chain for the pathway (so
`run_stage4_from_db` never calls `ensure_pathway_chain_in_db` for it: the
graph is untouched for that name). -/
theorem stage4_invalid_root_rejected :
    (∀ (name : String) (history existing : List (String × List String))
       (oracle : AIResult Stage4Data) (d : Stage4Data) (c0 : String),
      check_history_for_chain history name = none →
      check_if_fits_existing_hierarchy name existing = none →
      oracle.data = some d → d.chain.head? = some c0 →
      c0 ∉ ROOT_CATEGORY_NAMES →
      build_hierarchy_chain name history existing oracle = none) ∧
    (∀ (batch : List String) (chains : List BatchChainEntry) (name : String)
       (cd : BatchChainEntry) (c0 : String),
      chainLookup chains (pyUpper (pyStrip name)) = some cd →
      cd.chain.head? = some c0 → c0 ∉ ROOT_CATEGORY_NAMES →
      (process_batch_hierarchy_response batch chains).lookup name = none) := by
  constructor
  · intro name history existing oracle d c0 hhist hfit hdata hhead hroot
    cases hsucc : oracle.success with
    | false =>
      unfold build_hierarchy_chain
      rw [hhist]
      simp only [Option.getD_none, ne_eq, not_true_eq_false, if_false]
      by_cases hex : existing = []
      · subst hex; simp [hsucc]
      · simp [hex, hfit, hsucc]
    | true =>
      rw [build_hierarchy_chain_oracle_path name history existing oracle
        hhist hfit hsucc d hdata]
      exact validate_oracle_chain_bad_root name d.chain c0 hhead hroot
  · intro batch chains name cd c0 hlk hhead hroot
    refine lookup_process_batch_none chains name ?_ batch
    unfold process_one_batch_pathway
    rw [hlk]
    exact validate_oracle_chain_bad_root name cd.chain c0 hhead hroot

theorem stage4_invalid_root_rejected_witness :
    build_hierarchy_chain "X" [] []
        ⟨true, some ⟨["NotARoot", "B", "X"], none, 1⟩⟩ = none ∧
    (process_batch_hierarchy_response ["X"]
        [⟨"x", ["NotARoot", "X"], 1⟩]).lookup "X" = none := by
  constructor
  · exact stage4_invalid_root_rejected.1 "X" [] []
      ⟨true, some ⟨["NotARoot", "B", "X"], none, 1⟩⟩
      ⟨["NotARoot", "B", "X"], none, 1⟩ "NotARoot" rfl rfl rfl rfl (by decide)
  · exact stage4_invalid_root_rejected.2 ["X"]
      [⟨"x", ["NotARoot", "X"], 1⟩] "X"
      ⟨"x", ["NotARoot", "X"], 1⟩ "NotARoot" (by decide) rfl (by decide)

/-! ## Stage 5: sibling insertion -/

theorem setTypeSibling_id (ps : List Pathway) (name : String)
    (h : ∀ p ∈ ps, p.pathway_type = "main" ∨ p.pathway_type = "sibling") :
    setTypeSibling ps name = ps := by
  induction ps with
  | nil => rfl
  | cons p rest ih =>
    show (if p.name = name then _ else _) = _
    by_cases hn : p.name = name
    · rw [if_pos hn]
      rcases h p (List.mem_cons_self p rest) with ht | ht
      · rw [if_neg (by simp [ht])]
      · rw [if_pos (by simp [ht])]
        obtain ⟨i1, n1, t1, l1, f1, a1, d1, o1⟩ := p
        simp only [Pathway.mk.injEq] at ht ⊢
        simp_all
    · rw [if_neg hn]
      rw [ih (fun q hq => h q (List.mem_cons_of_mem p hq))]

/-- C8: a sibling candidate whose name is absent from the graph is
inserted as a fresh `'sibling'`-kind node with a non-primary-chain edge to
the given parent; a candidate whose name already exists anywhere leaves
the state entirely unchanged — no node, no edge, no field change (the
`kind` write is a no-op on the `'main'`/`'sibling'` kinds the pipeline
stores; upgrades toward MAIN happen only in later classification, never
here). -/
theorem stage5_sibling_insertion (st : DBState) (sib : SiblingCandidate)
    (parent : Nat) (level : Int)
    (htypes : ∀ p ∈ st.pathways,
      p.pathway_type = "main" ∨ p.pathway_type = "sibling") :
    ((∀ p ∈ st.pathways, p.name ≠ sib.name) →
      ∃ n e, (add_sibling_step parent level st sib).pathways = st.pathways ++ [n] ∧
        n.pathway_type = "sibling" ∧ n.name = sib.name ∧
        (add_sibling_step parent level st sib).parents = st.parents ++ [e] ∧
        e.is_primary_chain = false ∧ e.child_pathway_id = n.id ∧
        e.parent_pathway_id = parent) ∧
    ((∃ p ∈ st.pathways, p.name = sib.name) →
      add_sibling_step parent level st sib = st) := by
  constructor
  · intro habs
    have hfind : st.pathways.find? (fun p => p.name == sib.name) = none := by
      rw [List.find?_eq_none]
      intro p hp
      simpa using habs p hp
    unfold add_sibling_step
    rw [hfind]
    exact ⟨_, _, rfl, rfl, rfl, rfl, rfl, rfl, rfl⟩
  · intro ⟨p, hp, hname⟩
    have hfind : (st.pathways.find? (fun q => q.name == sib.name)).isSome := by
      rw [List.find?_isSome]
      exact ⟨p, hp, by simpa using hname⟩
    unfold add_sibling_step
    rw [if_pos hfind]
    rw [setTypeSibling_id st.pathways sib.name htypes]

theorem stage5_sibling_insertion_witness :
    (∃ n e,
      (add_sibling_step 3 2 ⟨[], [], 5⟩ ⟨"New", none, mkRat 4 5⟩).pathways = [] ++ [n] ∧
      n.pathway_type = "sibling" ∧ n.name = "New" ∧
      (add_sibling_step 3 2 ⟨[], [], 5⟩ ⟨"New", none, mkRat 4 5⟩).parents = [] ++ [e] ∧
      e.is_primary_chain = false ∧ e.child_pathway_id = n.id ∧
      e.parent_pathway_id = 3) ∧
    add_sibling_step 3 2
        ⟨[{ id := 1, name := "P", pathway_type := "main", hierarchy_level := 1 }], [], 2⟩
        ⟨"P", none, 1⟩
      = ⟨[{ id := 1, name := "P", pathway_type := "main", hierarchy_level := 1 }], [], 2⟩ := by
  constructor
  · exact (stage5_sibling_insertion ⟨[], [], 5⟩ ⟨"New", none, mkRat 4 5⟩ 3 2
      (by simp)).1 (by simp)
  · exact (stage5_sibling_insertion
      ⟨[{ id := 1, name := "P", pathway_type := "main", hierarchy_level := 1 }], [], 2⟩
      ⟨"P", none, 1⟩ 2 2 (by decide)).2
      ⟨{ id := 1, name := "P", pathway_type := "main", hierarchy_level := 1 },
        by decide, rfl⟩

/-! ## Stage 2: normalization totality and re-run behaviour -/

/-- C4: the claim fails on the code, which contradicts the function's own
docstring ("Returns: Dict mapping each original name to its canonical
name").  On a *successful* oracle response whose `normalizations` omit the
members of a multi-member group, those names receive no key: with the
grouped input `["abcd", "abce"]` and a successful response carrying an
empty `normalizations` array, the returned mapping is empty, so the input
name `"abcd"` is not a key. -/
theorem stage2_totality_failure :
    normalize_pathway_names_batch simStage2 FUZZY_MATCH_THRESHOLD
      ["abcd", "abce"] (fun _ => ⟨true, some []⟩) = [] ∧
    "abcd" ∈ ["abcd", "abce"] ∧
    (normalize_pathway_names_batch simStage2 FUZZY_MATCH_THRESHOLD
      ["abcd", "abce"] (fun _ => ⟨true, some []⟩)).lookup "abcd" = none := by
  refine ⟨by decide, by decide, by decide⟩

theorem lookup_map_upd (k v n : String) (h : k ≠ n) :
    ∀ db : List (String × String),
      (db.map (fun kv => if kv.1 == k then (k, v) else kv)).lookup n =
        db.lookup n := by
  intro db
  induction db with
  | nil => rfl
  | cons kv tl ih =>
    have hnk : (n == k) = false := by
      simp only [beq_eq_false_iff_ne]
      exact fun hnk => h hnk.symm
    simp only [List.map_cons]
    by_cases hk : kv.1 = k
    · have hmap : (if kv.1 == k then (k, v) else kv) = (k, v) := by simp [hk]
      have hnkv : (n == kv.1) = false := by rw [hk]; exact hnk
      rw [hmap]
      simp only [List.lookup, hnk, hnkv]
      exact ih
    · have hmap : (if kv.1 == k then (k, v) else kv) = kv := by simp [hk]
      rw [hmap]
      simp only [List.lookup]
      cases hn : n == kv.1 with
      | true => rfl
      | false => exact ih

theorem lookup_append_single_ne (k v n : String) (h : k ≠ n) :
    ∀ db : List (String × String),
      (db ++ [(k, v)]).lookup n = db.lookup n := by
  intro db
  induction db with
  | nil =>
    have hnk : (n == k) = false := by
      simp only [beq_eq_false_iff_ne]
      exact fun hnk => h hnk.symm
    simp [List.lookup, hnk]
  | cons kv tl ih =>
    simp only [List.cons_append, List.lookup]
    cases hn : n == kv.1 with
    | true => rfl
    | false => exact ih

theorem lookup_dictUpsert_ne (db : List (String × String)) (k v n : String)
    (h : k ≠ n) : (dictUpsert db k v).lookup n = db.lookup n := by
  unfold dictUpsert
  by_cases ha : db.any (fun kv => kv.1 == k)
  · rw [if_pos ha]; exact lookup_map_upd k v n h db
  · rw [if_neg ha]; exact lookup_append_single_ne k v n h db

theorem lookup_dictUpsert_self (db : List (String × String)) (k v : String) :
    (dictUpsert db k v).lookup k = some v := by
  unfold dictUpsert
  by_cases ha : db.any (fun kv => kv.1 == k)
  · rw [if_pos ha]
    induction db with
    | nil => simp at ha
    | cons kv tl ih =>
      simp only [List.map_cons]
      by_cases hk : kv.1 = k
      · have hmap : (if kv.1 == k then (k, v) else kv) = (k, v) := by simp [hk]
        rw [hmap]
        simp [List.lookup]
      · have hb : (kv.1 == k) = false := by simpa using hk
        have hmap : (if kv.1 == k then (k, v) else kv) = kv := by simp [hk]
        have ha2 : tl.any (fun kv => kv.1 == k) := by
          simp only [List.any_cons, hb, Bool.false_or] at ha
          exact ha
        have hkk : (k == kv.1) = false := by
          simp only [beq_eq_false_iff_ne]
          exact fun hkk => hk hkk.symm
        rw [hmap]
        simp only [List.lookup, hkk]
        exact ih ha2
  · rw [if_neg ha]
    induction db with
    | nil => simp [List.lookup]
    | cons kv tl ih =>
      have hb : (kv.1 == k) = false := by
        by_contra hc
        apply ha
        simp only [List.any_cons]
        cases hkv : kv.1 == k with
        | true => simp
        | false => exact absurd hkv hc
      have hkk : (k == kv.1) = false := by
        simp only [beq_eq_false_iff_ne]
        intro hkk
        rw [beq_eq_false_iff_ne] at hb
        exact hb hkk.symm
      simp only [List.cons_append, List.lookup, hkk]
      apply ih
      intro hc
      apply ha
      simp only [List.any_cons, hc, Bool.or_true]

theorem lookup_foldl_upsert_not_key (n : String) :
    ∀ (m : List (String × String)) (db : List (String × String)),
      (∀ kv ∈ m, kv.1 ≠ n) →
      (m.foldl (fun db kv => dictUpsert db kv.1 kv.2) db).lookup n =
        db.lookup n := by
  intro m
  induction m with
  | nil => intro db _; rfl
  | cons kv tl ih =>
    intro db h
    simp only [List.foldl_cons]
    rw [ih _ (fun kv2 h2 => h kv2 (List.mem_cons_of_mem kv h2))]
    exact lookup_dictUpsert_ne db kv.1 kv.2 n (h kv (List.mem_cons_self kv tl))

theorem lookup_foldl_upsert_const (n c : String) :
    ∀ (m : List (String × String)) (db : List (String × String)),
      db.lookup n = some c →
      (∀ kv ∈ m, kv.1 = n → kv.2 = c) →
      (m.foldl (fun db kv => dictUpsert db kv.1 kv.2) db).lookup n = some c := by
  intro m
  induction m with
  | nil => intro db hdb _; exact hdb
  | cons kv tl ih =>
    intro db hdb h
    simp only [List.foldl_cons]
    by_cases hk : kv.1 = n
    · have hv : kv.2 = c := h kv (List.mem_cons_self kv tl) hk
      apply ih
      · rw [hk, hv]
        exact lookup_dictUpsert_self db n c
      · exact fun kv2 h2 => h kv2 (List.mem_cons_of_mem kv h2)
    · apply ih
      · rw [lookup_dictUpsert_ne db kv.1 kv.2 n hk]
        exact hdb
      · exact fun kv2 h2 => h kv2 (List.mem_cons_of_mem kv h2)

/-- C5 (as stated) is falsified: a first run on `["abce"]` persists
`abce → abce`; re-running on the superset `["abce", "abcd"]` (with every
oracle call failing, so only the deterministic fallback acts) regroups
`abce` with the new name `abcd`, whose alphabetically-first member is
`abcd`, and the upsert in `run_stage2_from_db` overwrites the previously
persisted canonical name of `abce`. -/
theorem stage2_rerun_overwrites :
    run_stage2_from_db simStage2 FUZZY_MATCH_THRESHOLD [] ["abce"] oracleFailS2
      = [("abce", "abce")] ∧
    (run_stage2_from_db simStage2 FUZZY_MATCH_THRESHOLD
        (run_stage2_from_db simStage2 FUZZY_MATCH_THRESHOLD [] ["abce"]
          oracleFailS2)
        ["abce", "abcd"] oracleFailS2).lookup "abce" = some "abcd" ∧
    ("abcd" : String) ≠ "abce" := by
  refine ⟨by decide, by decide, by decide⟩

/-- C5 amended: `run_stage2_from_db` persists by upsert.  A previously
stored canonical assignment survives a re-run exactly when the new run
does not remap the name: it is unchanged when the name is not a key of the
new run's mappings, and it keeps its value when every new mapping for the
name agrees with the stored canonical; otherwise it is overwritten with
the new run's canonical (which the counterexample shows can differ). -/
theorem stage2_rerun_upsert (sim : String → String → ℚ) (threshold : ℚ)
    (db : List (String × String)) (names : List String)
    (oracle : Nat → AIResult (List Normalization)) (n : String) :
    ((∀ kv ∈ normalize_pathway_names_batch sim threshold names oracle,
        kv.1 ≠ n) →
      (run_stage2_from_db sim threshold db names oracle).lookup n =
        db.lookup n) ∧
    (∀ c, db.lookup n = some c →
      (∀ kv ∈ normalize_pathway_names_batch sim threshold names oracle,
        kv.1 = n → kv.2 = c) →
      (run_stage2_from_db sim threshold db names oracle).lookup n = some c) := by
  constructor
  · intro h
    exact lookup_foldl_upsert_not_key n _ db h
  · intro c hdb h
    exact lookup_foldl_upsert_const n c _ db hdb h

theorem stage2_rerun_upsert_witness :
    (run_stage2_from_db simStage2 FUZZY_MATCH_THRESHOLD [("kept", "value")]
        [] oracleFailS2).lookup "kept" = some "value" := by
  exact (stage2_rerun_upsert simStage2 FUZZY_MATCH_THRESHOLD
    [("kept", "value")] [] oracleFailS2 "kept").2 "value" (by decide)
    (by decide)

/-! ## Stage 7: orphan-root repair -/

theorem is_orphan_root_iff (p : Pathway) :
    is_orphan_root p = true ↔
      p.hierarchy_level = 0 ∧ p.name ∉ ROOT_CATEGORY_NAMES := by
  unfold is_orphan_root
  simp [List.contains_iff_exists_mem_beq]

theorem orphan_fallback_parents (st : DBState) :
    (orphan_fallback st).2.parents = st.parents := by
  unfold orphan_fallback
  cases st.pathways.find? (fun p => p.name == "Protein Quality Control") with
  | some fb => rfl
  | none => rfl

theorem orphan_fallback_pathways_super (st : DBState) :
    ∀ p ∈ st.pathways, p ∈ (orphan_fallback st).2.pathways := by
  unfold orphan_fallback
  cases st.pathways.find? (fun p => p.name == "Protein Quality Control") with
  | some fb => exact fun p hp => hp
  | none => exact fun p hp => List.mem_append_left _ hp

theorem orphan_fallback_pathways_cases (st : DBState) :
    ∀ p ∈ (orphan_fallback st).2.pathways,
      p ∈ st.pathways ∨ p.name = "Protein Quality Control" := by
  unfold orphan_fallback
  cases st.pathways.find? (fun p => p.name == "Protein Quality Control") with
  | some fb => exact fun p hp => Or.inl hp
  | none =>
    intro p hp
    rcases List.mem_append.mp hp with h | h
    · exact Or.inl h
    · right
      have := List.mem_singleton.mp h
      rw [this]

theorem orphan_fallback_root_mem (st : DBState) :
    ∃ fb ∈ (orphan_fallback st).2.pathways,
      fb.id = (orphan_fallback st).1 ∧ fb.name = "Protein Quality Control" := by
  unfold orphan_fallback
  cases hf : st.pathways.find? (fun p => p.name == "Protein Quality Control") with
  | some fbr =>
    refine ⟨fbr, List.mem_of_find?_eq_some hf, rfl, ?_⟩
    have := List.find?_some hf
    simpa using this
  | none =>
    exact ⟨_, List.mem_append_right _ (List.mem_cons_self _ _), rfl, rfl⟩

theorem fix_orphan_fold_pathways (fid : Nat) :
    ∀ (os : List Pathway) (st2 : DBState),
      (os.foldl (fix_orphan_step fid) st2).pathways =
        st2.pathways.map (fun p =>
          if (os.map (·.id)).contains p.id then { p with hierarchy_level := 1 }
          else p) := by
  intro os
  induction os with
  | nil =>
    intro st2
    simp
  | cons o os2 ih =>
    intro st2
    simp only [List.foldl_cons]
    rw [ih]
    show (st2.pathways.map
        (fun p => if p.id == o.id then { p with hierarchy_level := 1 } else p)).map _
      = _
    rw [List.map_map]
    apply List.map_congr_left
    intro p _
    simp only [Function.comp]
    by_cases h1 : p.id = o.id
    · by_cases h2 : (os2.map (·.id)).contains p.id
      · simp [h1, h2]
      · simp [h1, h2]
    · by_cases h2 : (os2.map (·.id)).contains p.id
      · simp [h1, h2]
      · simp [h1, h2]

theorem fix_orphan_fold_parents_mono (fid : Nat) :
    ∀ (os : List Pathway) (st2 : DBState) (e : PathwayParent),
      e ∈ st2.parents → e ∈ (os.foldl (fix_orphan_step fid) st2).parents := by
  intro os
  induction os with
  | nil => intro st2 e he; exact he
  | cons o os2 ih =>
    intro st2 e he
    simp only [List.foldl_cons]
    apply ih
    show e ∈ (fix_orphan_step fid st2 o).parents
    unfold fix_orphan_step
    dsimp only
    split
    · exact he
    · exact List.mem_append_left _ he

theorem fix_orphan_fold_inserts (fid : Nat) :
    ∀ (os : List Pathway) (st2 : DBState) (o : Pathway),
      o ∈ os → (os.map (·.id)).Nodup →
      (∀ e ∈ st2.parents, e.child_pathway_id ≠ o.id) →
      orphan_fix_edge o.id fid ∈ (os.foldl (fix_orphan_step fid) st2).parents := by
  intro os
  induction os with
  | nil => intro st2 o h; cases h
  | cons o2 os2 ih =>
    intro st2 o hmem hnd hnoe
    simp only [List.foldl_cons]
    rcases List.mem_cons.mp hmem with heq | hmem2
    · subst heq
      apply fix_orphan_fold_parents_mono
      show orphan_fix_edge o.id fid ∈ (fix_orphan_step fid st2 o).parents
      unfold fix_orphan_step
      dsimp only
      have hfind : st2.parents.find? (fun e => e.child_pathway_id == o.id) = none := by
        rw [List.find?_eq_none]
        intro e he
        simpa using hnoe e he
      rw [hfind]
      simp
    · have hid : o2.id ≠ o.id := by
        simp only [List.map_cons, List.nodup_cons] at hnd
        intro hcontra
        exact hnd.1 (hcontra ▸ List.mem_map_of_mem (·.id) hmem2)
      have hnd2 : (os2.map (·.id)).Nodup := by
        simp only [List.map_cons, List.nodup_cons] at hnd
        exact hnd.2
      apply ih _ o hmem2 hnd2
      intro e he
      show e.child_pathway_id ≠ o.id
      unfold fix_orphan_step at he
      dsimp only at he
      split at he
      · exact hnoe e he
      · rcases List.mem_append.mp he with h | h
        · exact hnoe e h
        · have := List.mem_singleton.mp h
          rw [this]
          exact hid

/-- C9 (as stated) is falsified on the edge conjunct: an orphan that
already has some parent edge is re-levelled to 1 but no `'orphan_fix'`
edge to the fallback root is created (`fix_orphan_pathways` only inserts
the edge when `filter_by(child_pathway_id=orphan.id).first()` is `None`,
stage7 lines 256-269). -/
theorem stage7_orphan_fix_missing_edge :
    ((fix_orphan_pathways
        ⟨[{ id := 1, name := "Foo", pathway_type := "main", hierarchy_level := 0 },
          { id := 2, name := "Bar", pathway_type := "main", hierarchy_level := 3 }],
         [{ child_pathway_id := 1, parent_pathway_id := 2,
            relationship_type := "is_a", confidence := mkRat 1 1,
            source := "AI", is_primary_chain := true }], 3⟩).parents.all
      (fun e => e.source != "orphan_fix")) = true ∧
    ((fix_orphan_pathways
        ⟨[{ id := 1, name := "Foo", pathway_type := "main", hierarchy_level := 0 },
          { id := 2, name := "Bar", pathway_type := "main", hierarchy_level := 3 }],
         [{ child_pathway_id := 1, parent_pathway_id := 2,
            relationship_type := "is_a", confidence := mkRat 1 1,
            source := "AI", is_primary_chain := true }], 3⟩).pathways.map
      (fun p => (p.id, p.hierarchy_level))) = [(1, 1), (2, 3), (3, 0)] := by
  constructor
  · decide
  · decide

/-- C9 amended: after `fix_orphan_pathways` every remaining level-0 node's
name is in the fixed root set; every orphan (level 0, name outside the
root set) gets level 1; and an orphan that had *no* parent edge at all
gets the confidence-0.5 `'orphan_fix'` primary edge to the fallback root
(`"Protein Quality Control"`) — an orphan with a pre-existing parent edge
is only re-levelled, as the counterexample shows. -/
theorem stage7_orphan_fix (st : DBState)
    (hids : (st.pathways.map (·.id)).Nodup) :
    (∀ p ∈ (fix_orphan_pathways st).pathways,
      p.hierarchy_level = 0 → p.name ∈ ROOT_CATEGORY_NAMES) ∧
    (∀ o ∈ st.pathways, o.hierarchy_level = 0 → o.name ∉ ROOT_CATEGORY_NAMES →
      (∃ p ∈ (fix_orphan_pathways st).pathways,
        p.id = o.id ∧ p.hierarchy_level = 1) ∧
      ((∀ e ∈ st.parents, e.child_pathway_id ≠ o.id) →
        ∃ e ∈ (fix_orphan_pathways st).parents,
          e.child_pathway_id = o.id ∧ e.confidence = mkRat 1 2 ∧
          e.source = "orphan_fix" ∧ e.is_primary_chain = true ∧
          ∃ fb ∈ (fix_orphan_pathways st).pathways,
            fb.id = e.parent_pathway_id ∧
            fb.name = "Protein Quality Control")) := by
  by_cases hor : st.pathways.filter is_orphan_root = []
  · have hfix : fix_orphan_pathways st = st := by
      unfold fix_orphan_pathways
      rw [hor]
      rfl
    constructor
    · intro p hp hlv
      rw [hfix] at hp
      by_contra hname
      have : p ∈ st.pathways.filter is_orphan_root := by
        rw [List.mem_filter]
        exact ⟨hp, (is_orphan_root_iff p).mpr ⟨hlv, hname⟩⟩
      rw [hor] at this
      cases this
    · intro o ho hlv hname
      exfalso
      have : o ∈ st.pathways.filter is_orphan_root := by
        rw [List.mem_filter]
        exact ⟨ho, (is_orphan_root_iff o).mpr ⟨hlv, hname⟩⟩
      rw [hor] at this
      cases this
  · have hfix : fix_orphan_pathways st =
        (st.pathways.filter is_orphan_root).foldl
          (fix_orphan_step (orphan_fallback st).1) (orphan_fallback st).2 := by
      unfold fix_orphan_pathways
      rw [if_neg hor]
    have hpaths := fix_orphan_fold_pathways (orphan_fallback st).1
      (st.pathways.filter is_orphan_root) (orphan_fallback st).2
    constructor
    · intro p hp hlv
      rw [hfix] at hp
      rw [hpaths] at hp
      obtain ⟨q, hq, hqp⟩ := List.mem_map.mp hp
      by_cases hco : ((st.pathways.filter is_orphan_root).map (·.id)).contains q.id
      · rw [if_pos hco] at hqp
        rw [← hqp] at hlv
        simp at hlv
      · rw [if_neg hco] at hqp
        subst hqp
        rcases orphan_fallback_pathways_cases st q hq with hq2 | hq2
        · by_contra hname
          apply hco
          have : q ∈ st.pathways.filter is_orphan_root := by
            rw [List.mem_filter]
            exact ⟨hq2, (is_orphan_root_iff q).mpr ⟨hlv, hname⟩⟩
          simp only [List.contains_iff_exists_mem_beq]
          exact ⟨q.id, List.mem_map_of_mem (·.id) this, by simp⟩
        · rw [hq2]
          decide
    · intro o ho hlv hname
      have homem : o ∈ st.pathways.filter is_orphan_root := by
        rw [List.mem_filter]
        exact ⟨ho, (is_orphan_root_iff o).mpr ⟨hlv, hname⟩⟩
      constructor
      · rw [hfix, hpaths]
        have ho1 : o ∈ (orphan_fallback st).2.pathways :=
          orphan_fallback_pathways_super st o ho
        refine ⟨_, List.mem_map_of_mem _ ho1, ?_, ?_⟩
        · have hco : ((st.pathways.filter is_orphan_root).map (·.id)).contains o.id
              = true := by
            simp only [List.contains_iff_exists_mem_beq]
            exact ⟨o.id, List.mem_map_of_mem (·.id) homem, by simp⟩
          rw [if_pos hco]
        · have hco : ((st.pathways.filter is_orphan_root).map (·.id)).contains o.id
              = true := by
            simp only [List.contains_iff_exists_mem_beq]
            exact ⟨o.id, List.mem_map_of_mem (·.id) homem, by simp⟩
          rw [if_pos hco]
      · intro hnoe
        have hndo : ((st.pathways.filter is_orphan_root).map (·.id)).Nodup := by
          have hsub := (List.filter_sublist (p := is_orphan_root)
            st.pathways).map (·.id)
          exact List.Nodup.sublist hsub hids
        have hnoe2 : ∀ e ∈ (orphan_fallback st).2.parents,
            e.child_pathway_id ≠ o.id := by
          rw [orphan_fallback_parents]
          exact hnoe
        have hins := fix_orphan_fold_inserts (orphan_fallback st).1
          (st.pathways.filter is_orphan_root) (orphan_fallback st).2 o
          homem hndo hnoe2
        rw [← hfix] at hins
        refine ⟨orphan_fix_edge o.id (orphan_fallback st).1, hins,
          rfl, rfl, rfl, rfl, ?_⟩
        obtain ⟨fb, hfb, hfbid, hfbname⟩ := orphan_fallback_root_mem st
        rw [hfix, hpaths]
        by_cases hco : ((st.pathways.filter is_orphan_root).map (·.id)).contains fb.id
        · refine ⟨_, List.mem_map_of_mem _ hfb, ?_⟩
          rw [if_pos hco]
          exact ⟨hfbid, hfbname⟩
        · refine ⟨_, List.mem_map_of_mem _ hfb, ?_⟩
          rw [if_neg hco]
          exact ⟨hfbid, hfbname⟩

theorem stage7_orphan_fix_witness :
    (∀ p ∈ (fix_orphan_pathways
        ⟨[{ id := 1, name := "Foo", pathway_type := "main",
            hierarchy_level := 0 }], [], 2⟩).pathways,
      p.hierarchy_level = 0 → p.name ∈ ROOT_CATEGORY_NAMES) ∧
    (∃ e ∈ (fix_orphan_pathways
        ⟨[{ id := 1, name := "Foo", pathway_type := "main",
            hierarchy_level := 0 }], [], 2⟩).parents,
      e.child_pathway_id = 1 ∧ e.confidence = mkRat 1 2 ∧
      e.source = "orphan_fix" ∧ e.is_primary_chain = true ∧
      ∃ fb ∈ (fix_orphan_pathways
          ⟨[{ id := 1, name := "Foo", pathway_type := "main",
              hierarchy_level := 0 }], [], 2⟩).pathways,
        fb.id = e.parent_pathway_id ∧ fb.name = "Protein Quality Control") := by
  have h := stage7_orphan_fix
    ⟨[⟨1, "Foo", "main", 0, false, false, none, none⟩], [], 2⟩ (by decide)
  refine ⟨h.1, ?_⟩
  exact (h.2 ⟨1, "Foo", "main", 0, false, false, none, none⟩
      (by decide) rfl (by decide)).2
    (by intro e he; cases he)

/-! ## Stage 7: dead-subtree pruning

The Python recursion of `get_interaction_count_in_subtree` is unbounded;
all theorems below hypothesize a topological measure `meas` that decreases
along parent→child edges (the standard witness of acyclicity on a finite
graph) and take any fuel above it, under which the fuel-indexed embedding
agrees with the Python recursion. -/

theorem mem_childMap_iff (parents : List PathwayParent) (a b : Nat) :
    b ∈ childMap parents a ↔
      ∃ e ∈ parents, e.parent_pathway_id = a ∧ e.child_pathway_id = b := by
  unfold childMap
  rw [List.mem_dedup, List.mem_map]
  constructor
  · rintro ⟨e, he, rfl⟩
    rw [List.mem_filter] at he
    exact ⟨e, he.1, by simpa using he.2, rfl⟩
  · rintro ⟨e, he, hpa, hcb⟩
    exact ⟨e, List.mem_filter.mpr ⟨he, by simpa using hpa⟩, hcb⟩

theorem map_sum_zero {α : Type} (l : List α) (f : α → Nat)
    (h : (l.map f).sum = 0) : ∀ x ∈ l, f x = 0 := by
  intro x hx
  exact List.sum_eq_zero_iff.mp h _ (List.mem_map_of_mem f hx)

theorem map_sum_pos {α : Type} (l : List α) (f : α → Nat) (x : α)
    (hx : x ∈ l) (hp : 0 < f x) : 0 < (l.map f).sum := by
  by_contra h
  have hs : (l.map f).sum = 0 := by omega
  have := map_sum_zero l f hs x hx
  omega

theorem map_sum_pos_exists {α : Type} (l : List α) (f : α → Nat)
    (h : 0 < (l.map f).sum) : ∃ x ∈ l, 0 < f x := by
  by_contra hall
  push_neg at hall
  have hz : (l.map f).sum = 0 := by
    apply List.sum_eq_zero_iff.mpr
    intro x hx
    obtain ⟨a, ha, rfl⟩ := List.mem_map.mp hx
    have := hall a ha
    omega
  omega

theorem subtree_succ (parents : List PathwayParent) (counts : Nat → Nat)
    (k pid : Nat) :
    get_interaction_count_in_subtree parents counts (k + 1) pid =
      counts pid + ((childMap parents pid).map
        (get_interaction_count_in_subtree parents counts k)).sum := rfl

theorem get_interaction_count_in_subtree_stable (parents : List PathwayParent)
    (counts : Nat → Nat) (meas : Nat → Nat)
    (hMeas : ∀ a b, b ∈ childMap parents a → meas b < meas a) :
    ∀ (m pid f1 f2 : Nat), meas pid ≤ m → meas pid < f1 → meas pid < f2 →
      get_interaction_count_in_subtree parents counts f1 pid =
        get_interaction_count_in_subtree parents counts f2 pid := by
  intro m
  induction m with
  | zero =>
    intro pid f1 f2 hm h1 h2
    obtain ⟨k1, rfl⟩ : ∃ k, f1 = k + 1 := ⟨f1 - 1, by omega⟩
    obtain ⟨k2, rfl⟩ : ∃ k, f2 = k + 1 := ⟨f2 - 1, by omega⟩
    rw [subtree_succ, subtree_succ]
    congr 1
    have : (childMap parents pid).map
        (get_interaction_count_in_subtree parents counts k1) =
      (childMap parents pid).map
        (get_interaction_count_in_subtree parents counts k2) :=
      List.map_congr_left (fun c hc => absurd (hMeas _ _ hc) (by omega))
    rw [this]
  | succ m ih =>
    intro pid f1 f2 hm h1 h2
    obtain ⟨k1, rfl⟩ : ∃ k, f1 = k + 1 := ⟨f1 - 1, by omega⟩
    obtain ⟨k2, rfl⟩ : ∃ k, f2 = k + 1 := ⟨f2 - 1, by omega⟩
    rw [subtree_succ, subtree_succ]
    congr 1
    have : (childMap parents pid).map
        (get_interaction_count_in_subtree parents counts k1) =
      (childMap parents pid).map
        (get_interaction_count_in_subtree parents counts k2) :=
      List.map_congr_left (fun c hc => by
        have := hMeas _ _ hc
        exact ih c k1 k2 (by omega) (by omega) (by omega))
    rw [this]

theorem subtree_count_zero_reach (parents : List PathwayParent)
    (counts : Nat → Nat) (meas : Nat → Nat)
    (hMeas : ∀ a b, b ∈ childMap parents a → meas b < meas a) :
    ∀ (m pid fuel : Nat), meas pid ≤ m → meas pid < fuel →
      get_interaction_count_in_subtree parents counts fuel pid = 0 →
      ∀ r, InSubtree parents pid r → counts r = 0 := by
  intro m
  induction m with
  | zero =>
    intro pid fuel hm hf h0 r hr
    obtain ⟨k, rfl⟩ : ∃ k, fuel = k + 1 := ⟨fuel - 1, by omega⟩
    rw [subtree_succ] at h0
    rcases Relation.ReflTransGen.cases_head hr with heq | ⟨c, hc, hcr⟩
    · rw [← heq]; omega
    · exact absurd (hMeas _ _ hc) (by omega)
  | succ m ih =>
    intro pid fuel hm hf h0 r hr
    obtain ⟨k, rfl⟩ : ∃ k, fuel = k + 1 := ⟨fuel - 1, by omega⟩
    rw [subtree_succ] at h0
    rcases Relation.ReflTransGen.cases_head hr with heq | ⟨c, hc, hcr⟩
    · rw [← heq]; omega
    · have hsum : ((childMap parents pid).map
          (get_interaction_count_in_subtree parents counts k)).sum = 0 := by
        omega
      have hc0 := map_sum_zero _ _ hsum c hc
      have hmc := hMeas _ _ hc
      exact ih c k (by omega) (by omega) hc0 r hcr

theorem contains_iff_mem {α : Type} [BEq α] [LawfulBEq α] (l : List α) (x : α) :
    l.contains x = true ↔ x ∈ l := by
  simp [List.contains_iff_exists_mem_beq]

theorem mem_prune_dead_iff (fuel : Nat) (pathways : List Pathway)
    (parents : List PathwayParent) (counts : Nat → Nat) (x : Nat) :
    x ∈ prune_dead_pathways fuel pathways parents counts ↔
      ∃ p ∈ pathways, p.id = x ∧
        ((rootIdsOf pathways).contains p.id) = false ∧
        p.pathway_type ≠ "sibling" ∧
        get_interaction_count_in_subtree parents counts fuel p.id = 0 := by
  unfold prune_dead_pathways
  rw [List.mem_map]
  constructor
  · rintro ⟨p, hp, rfl⟩
    rw [List.mem_filter] at hp
    have h2 := hp.2
    simp only [Bool.and_eq_true, Bool.not_eq_true', bne_iff_ne, ne_eq,
      beq_iff_eq] at h2
    exact ⟨p, hp.1, rfl, h2.1.1, h2.1.2, h2.2⟩
  · rintro ⟨p, hp, rfl, h1, h2, h3⟩
    refine ⟨p, List.mem_filter.mpr ⟨hp, ?_⟩, rfl⟩
    simp only [Bool.and_eq_true, Bool.not_eq_true', bne_iff_ne, ne_eq,
      beq_iff_eq]
    exact ⟨⟨h1, h2⟩, h3⟩

theorem mem_rootIdsOf_iff (pathways : List Pathway) (x : Nat) :
    x ∈ rootIdsOf pathways ↔
      ∃ p ∈ pathways, p.name ∈ ROOT_CATEGORY_NAMES ∧ p.id = x := by
  unfold rootIdsOf
  rw [List.mem_map]
  constructor
  · rintro ⟨p, hp, rfl⟩
    rw [List.mem_filter] at hp
    exact ⟨p, hp.1, (contains_iff_mem _ _).mp hp.2, rfl⟩
  · rintro ⟨p, hp, hname, rfl⟩
    exact ⟨p, List.mem_filter.mpr ⟨hp, (contains_iff_mem _ _).mpr hname⟩, rfl⟩

theorem subtree_count_pos_preserved (pathways : List Pathway)
    (parents : List PathwayParent) (counts meas : Nat → Nat) (fuel0 : Nat)
    (hMeas : ∀ a b, b ∈ childMap parents a → meas b < meas a)
    (hFuel0 : ∀ p ∈ pathways, meas p.id < fuel0) :
    ∀ (m pid fuel : Nat), meas pid ≤ m → meas pid < fuel →
      0 < get_interaction_count_in_subtree parents counts fuel pid →
      ((prune_dead_pathways fuel0 pathways parents counts).contains pid) = false →
      0 < get_interaction_count_in_subtree
            (prune_and_delete fuel0 pathways parents counts).2 counts fuel pid := by
  intro m
  induction m with
  | zero =>
    intro pid fuel hm hf hpos hnd
    obtain ⟨k, rfl⟩ : ∃ k, fuel = k + 1 := ⟨fuel - 1, by omega⟩
    rw [subtree_succ] at hpos ⊢
    by_cases hcp : 0 < counts pid
    · omega
    · exfalso
      have hsum : 0 < ((childMap parents pid).map
          (get_interaction_count_in_subtree parents counts k)).sum := by omega
      obtain ⟨c, hc, _⟩ := map_sum_pos_exists _ _ hsum
      exact absurd (hMeas _ _ hc) (by omega)
  | succ m ih =>
    intro pid fuel hm hf hpos hnd
    obtain ⟨k, rfl⟩ : ∃ k, fuel = k + 1 := ⟨fuel - 1, by omega⟩
    rw [subtree_succ] at hpos ⊢
    by_cases hcp : 0 < counts pid
    · omega
    · have hsum : 0 < ((childMap parents pid).map
          (get_interaction_count_in_subtree parents counts k)).sum := by omega
      obtain ⟨c, hc, hcpos⟩ := map_sum_pos_exists _ _ hsum
      have hmc := hMeas _ _ hc
      have hcnd : ((prune_dead_pathways fuel0 pathways parents counts).contains c)
          = false := by
        by_contra hcd
        have hcd2 : c ∈ prune_dead_pathways fuel0 pathways parents counts := by
          cases h : (prune_dead_pathways fuel0 pathways parents counts).contains c with
          | false => exact absurd h hcd
          | true => exact (contains_iff_mem _ _).mp h
        obtain ⟨q, hq, hqid, _, _, hq0⟩ :=
          (mem_prune_dead_iff fuel0 pathways parents counts c).mp hcd2
        have hqm : meas q.id < fuel0 := hFuel0 q hq
        rw [hqid] at hqm hq0
        have := get_interaction_count_in_subtree_stable parents counts meas hMeas
          (meas c) c fuel0 k le_rfl hqm (by omega)
        omega
      obtain ⟨e, he, hep, hec⟩ := (mem_childMap_iff parents pid c).mp hc
      have hmem2 : c ∈ childMap
          (prune_and_delete fuel0 pathways parents counts).2 pid := by
        rw [mem_childMap_iff]
        refine ⟨e, ?_, hep, hec⟩
        show e ∈ List.filter _ parents
        rw [List.mem_filter]
        refine ⟨he, ?_⟩
        rw [hec, hep, hcnd, hnd]
        rfl
      have hpos2 := ih c k (by omega) (by omega) hcpos hcnd
      have := map_sum_pos (childMap
        (prune_and_delete fuel0 pathways parents counts).2 pid)
        (get_interaction_count_in_subtree
          (prune_and_delete fuel0 pathways parents counts).2 counts k)
        c hmem2 hpos2
      omega

/-- C6: on an acyclic graph (witnessed by a topological measure) with
enough fuel and unique row ids, every pathway reported dead by
`prune_dead_pathways` has a name outside the fixed root set, is not of
`'sibling'` kind, and has zero interactions everywhere in its transitive
subtree, itself included. -/
theorem stage7_prune_dead_safe (pathways : List Pathway)
    (parents : List PathwayParent) (counts meas : Nat → Nat) (fuel : Nat)
    (hMeas : ∀ a b, b ∈ childMap parents a → meas b < meas a)
    (hFuel : ∀ p ∈ pathways, meas p.id < fuel)
    (hIds : (pathways.map (·.id)).Nodup) :
    ∀ p ∈ pathways, p.id ∈ prune_dead_pathways fuel pathways parents counts →
      p.name ∉ ROOT_CATEGORY_NAMES ∧ p.pathway_type ≠ "sibling" ∧
      ∀ r, InSubtree parents p.id r → counts r = 0 := by
  intro p hp hdead
  obtain ⟨q, hq, hqid, hroot, hsib, h0⟩ :=
    (mem_prune_dead_iff fuel pathways parents counts p.id).mp hdead
  have hpq : q = p := List.inj_on_of_nodup_map hIds hq hp hqid
  subst hpq
  refine ⟨?_, hsib, ?_⟩
  · intro hname
    have hmem : q.id ∈ rootIdsOf pathways :=
      (mem_rootIdsOf_iff _ _).mpr ⟨q, hq, hname, rfl⟩
    have h2 := (contains_iff_mem (rootIdsOf pathways) q.id).mpr hmem
    rw [hroot] at h2
    cases h2
  · intro r hr
    exact subtree_count_zero_reach parents counts meas hMeas (meas q.id) q.id
      fuel le_rfl (hFuel q hq) h0 r hr

theorem stage7_prune_dead_safe_witness :
    (⟨2, "A", "main", 1, false, false, none, none⟩ : Pathway).name ∉
        ROOT_CATEGORY_NAMES ∧
    (⟨2, "A", "main", 1, false, false, none, none⟩ : Pathway).pathway_type ≠
        "sibling" ∧
    (fun _ : Nat => 0) 2 = 0 := by
  have h := stage7_prune_dead_safe
    [⟨1, "Metabolism", "main", 0, false, false, none, none⟩,
     ⟨2, "A", "main", 1, false, false, none, none⟩]
    [] (fun _ => 0) (fun _ => 0) 1
    (by intro a b hb; simp [childMap] at hb)
    (by intro p _; exact Nat.one_pos)
    (by decide)
    ⟨2, "A", "main", 1, false, false, none, none⟩
    (by decide) (by decide)
  exact ⟨h.1, h.2.1, h.2.2 2 Relation.ReflTransGen.refl⟩

/-- C7: pruning reaches its fixed point in one pass.  On an acyclic graph
state, deleting every dead pathway computed on the same snapshot (together
with its incident edges) leaves a state in which an immediately following
`prune_dead_pathways` scan finds zero dead nodes. -/
theorem stage7_prune_fixed_point (pathways : List Pathway)
    (parents : List PathwayParent) (counts meas : Nat → Nat) (fuel : Nat)
    (hMeas : ∀ a b, b ∈ childMap parents a → meas b < meas a)
    (hFuel : ∀ p ∈ pathways, meas p.id < fuel) :
    prune_dead_pathways fuel
      (prune_and_delete fuel pathways parents counts).1
      (prune_and_delete fuel pathways parents counts).2 counts = [] := by
  have hmem1 : ∀ q : Pathway,
      q ∈ (prune_and_delete fuel pathways parents counts).1 ↔
        q ∈ pathways ∧
        ((prune_dead_pathways fuel pathways parents counts).contains q.id)
          = false := by
    intro q
    show q ∈ List.filter _ pathways ↔ _
    rw [List.mem_filter]
    constructor
    · rintro ⟨h1, h2⟩
      rw [Bool.not_eq_true'] at h2
      exact ⟨h1, h2⟩
    · rintro ⟨h1, h2⟩
      exact ⟨h1, by rw [Bool.not_eq_true', h2]⟩
  have hroots : ∀ x : Nat,
      x ∈ rootIdsOf (prune_and_delete fuel pathways parents counts).1 ↔
        x ∈ rootIdsOf pathways := by
    intro x
    rw [mem_rootIdsOf_iff, mem_rootIdsOf_iff]
    constructor
    · rintro ⟨p, hp, hname, rfl⟩
      exact ⟨p, ((hmem1 p).mp hp).1, hname, rfl⟩
    · rintro ⟨p, hp, hname, rfl⟩
      refine ⟨p, (hmem1 p).mpr ⟨hp, ?_⟩, hname, rfl⟩
      cases hcon : (prune_dead_pathways fuel pathways parents counts).contains
          p.id with
      | false => rfl
      | true =>
        exfalso
        have hd := (contains_iff_mem _ _).mp hcon
        obtain ⟨q, hq, hqid, hrootq, _, _⟩ :=
          (mem_prune_dead_iff fuel pathways parents counts p.id).mp hd
        have : p.id ∈ rootIdsOf pathways :=
          (mem_rootIdsOf_iff _ _).mpr ⟨p, hp, hname, rfl⟩
        have h2 := (contains_iff_mem (rootIdsOf pathways) q.id).mpr
          (hqid ▸ this)
        rw [hrootq] at h2
        cases h2
  unfold prune_dead_pathways
  rw [List.map_eq_nil_iff, List.filter_eq_nil_iff]
  intro q hq hcond
  simp only [Bool.and_eq_true, Bool.not_eq_true', bne_iff_ne, ne_eq,
    beq_iff_eq] at hcond
  obtain ⟨⟨hq'root, hqsib⟩, hq0⟩ := hcond
  obtain ⟨hqmem, hqnd⟩ := (hmem1 q).mp hq
  have hrootold : ((rootIdsOf pathways).contains q.id) = false := by
    cases hcon : (rootIdsOf pathways).contains q.id with
    | false => rfl
    | true =>
      exfalso
      have hm := (contains_iff_mem _ _).mp hcon
      have hm2 := (hroots q.id).mpr hm
      have h2 := (contains_iff_mem _ _).mpr hm2
      rw [hq'root] at h2
      cases h2
  by_cases h0 : get_interaction_count_in_subtree parents counts fuel q.id = 0
  · have : q.id ∈ prune_dead_pathways fuel pathways parents counts :=
      (mem_prune_dead_iff fuel pathways parents counts q.id).mpr
        ⟨q, hqmem, rfl, hrootold, hqsib, h0⟩
    have h2 := (contains_iff_mem _ _).mpr this
    rw [hqnd] at h2
    cases h2
  · have hpos : 0 < get_interaction_count_in_subtree parents counts fuel q.id := by
      omega
    have := subtree_count_pos_preserved pathways parents counts meas fuel
      hMeas hFuel (meas q.id) q.id fuel le_rfl (hFuel q hqmem) hpos hqnd
    omega

theorem stage7_prune_fixed_point_witness :
    prune_dead_pathways 2
      (prune_and_delete 2
        [⟨1, "Metabolism", "main", 0, false, false, none, none⟩,
         ⟨2, "A", "main", 1, false, false, none, none⟩]
        [⟨2, 1, "is_a", mkRat 1 1, "AI", true⟩] (fun _ => 0)).1
      (prune_and_delete 2
        [⟨1, "Metabolism", "main", 0, false, false, none, none⟩,
         ⟨2, "A", "main", 1, false, false, none, none⟩]
        [⟨2, 1, "is_a", mkRat 1 1, "AI", true⟩] (fun _ => 0)).2
      (fun _ => 0) = [] := by
  apply stage7_prune_fixed_point
    [⟨1, "Metabolism", "main", 0, false, false, none, none⟩,
     ⟨2, "A", "main", 1, false, false, none, none⟩]
    [⟨2, 1, "is_a", mkRat 1 1, "AI", true⟩] (fun _ => 0)
    (fun id => if id = 1 then 1 else 0) 2
  · intro a b hb
    rw [mem_childMap_iff] at hb
    obtain ⟨e, he, hep, hec⟩ := hb
    have he2 := List.mem_singleton.mp he
    subst he2
    simp only at hep hec
    rw [← hep, ← hec]
    decide
  · intro p hp
    simp only [List.mem_cons, List.mem_singleton] at hp
    rcases hp with rfl | rfl | h
    · decide
    · decide
    · cases h

end PipelineV2
